import Mathlib

/-!
Verification of the retrieval pipeline of a document question-answering
service: the sentence-based chunker (`chunk_text`, `get_overlap_text`),
the PDF extractor's OCR routing (`parse_pdf`), the TXT decoder
(`parse_txt`), and the vector store (`create_embeddings`,
`similarity_search`, `session_exists`).

Python strings are modelled as `List Char`; `str.strip` as `strip`
(dropping whitespace on both ends).  The external collaborators
(subword tokenizer, sentence segmenter, embedding provider, OCR engine)
are modelled as function-valued fields of configuration/environment
structures, since they are third-party services outside the repository;
concrete executable instances are supplied for witnesses and
counterexamples.  Machine floats (embedding coordinates, similarity
scores) are modelled over `Int`: every property proved here is an
order and counting property that does not depend on the arithmetic
domain of the scores.
-/

abbrev Str := List Char

def wsChar (c : Char) : Bool := c.isWhitespace

/-- Model of Python `str.lstrip()`. -/
def trimLeft (s : Str) : Str := s.dropWhile wsChar

/-- Model of Python `str.rstrip()`. -/
def trimRight (s : Str) : Str := (s.reverse.dropWhile wsChar).reverse

/-- Model of Python `str.strip()`. -/
def strip (s : Str) : Str := trimRight (trimLeft s)

/-- A chunk as built by `DocumentParser.chunk_text`:
`{'text': ..., 'token_count': ..., 'chunk_id': ...}`. -/
structure Chunk where
  text : Str
  token_count : Nat
  chunk_id : Nat
deriving DecidableEq

/-- Configuration of `DocumentParser` relevant to chunking: the
tokenizer pair (`tiktoken` `encode`/`decode`), the sentence segmenter
(`nltk.sent_tokenize`) and the two size parameters.  The tokenizer and
segmenter are external collaborators, hence function fields.
`chunk_overlap` is a Python int; the code's `overlap_tokens <= 0` test
is modelled by `= 0` on `Nat` (a negative configured overlap behaves
like `0`). -/
structure ChunkerCfg where
  encode : Str → List Nat
  decode : List Nat → Str
  sentTokenize : Str → List Str
  chunk_size : Nat
  chunk_overlap : Nat

/-- `DocumentParser._get_overlap_text`: last `chunk_overlap` tokens of
`text`, decoded back to text; the whole text if it has at most that
many tokens; empty when overlap is disabled. -/
def get_overlap_text (cfg : ChunkerCfg) (text : Str) : Str :=
  if cfg.chunk_overlap = 0 then []
  else
    let tokens := cfg.encode text
    if tokens.length ≤ cfg.chunk_overlap then text
    else cfg.decode (tokens.drop (tokens.length - cfg.chunk_overlap))

/-- The sentence loop of `DocumentParser.chunk_text`.  State:
(emitted chunks, current buffer, accumulated token count).  The Python
truthiness test `and current_chunk` is `cur ≠ []`. -/
def chunkLoop (cfg : ChunkerCfg) :
    List Str → List Chunk → Str → Nat → List Chunk × Str × Nat
  | [], chunks, cur, curTok => (chunks, cur, curTok)
  | s :: rest, chunks, cur, curTok =>
    if cfg.chunk_size < curTok + (cfg.encode s).length ∧ cur ≠ [] then
      chunkLoop cfg rest (chunks ++ [⟨strip cur, curTok, chunks.length⟩])
        (get_overlap_text cfg cur ++ ' ' :: s)
        (cfg.encode (get_overlap_text cfg cur ++ ' ' :: s)).length
    else
      chunkLoop cfg rest chunks (if cur = [] then s else cur ++ ' ' :: s)
        (curTok + (cfg.encode s).length)

/-- `DocumentParser.chunk_text`. -/
def chunk_text (cfg : ChunkerCfg) (text : Str) : List Chunk :=
  if strip text = [] then []
  else
    if strip (chunkLoop cfg (cfg.sentTokenize text) [] [] 0).2.1 = [] then
      (chunkLoop cfg (cfg.sentTokenize text) [] [] 0).1
    else
      (chunkLoop cfg (cfg.sentTokenize text) [] [] 0).1 ++
        [⟨strip (chunkLoop cfg (cfg.sentTokenize text) [] [] 0).2.1,
          (chunkLoop cfg (cfg.sentTokenize text) [] [] 0).2.2,
          (chunkLoop cfg (cfg.sentTokenize text) [] [] 0).1.length⟩]

/-- Space-join of a list of sentences, mirroring how the buffer string
is assembled (`current_chunk + " " + sentence`). -/
def joinSp : List Str → Str
  | [] => []
  | [s] => s
  | s :: s2 :: rest => s ++ ' ' :: joinSp (s2 :: rest)

/-- Sum of per-sentence token counts, as accumulated by the loop. -/
def tokSum (cfg : ChunkerCfg) (ss : List Str) : Nat :=
  (ss.map (fun s => (cfg.encode s).length)).sum

/-- The base of a chunk buffer: either a bare first sentence, or an
overlap tail (as computed by `get_overlap_text` from the previous
buffer) joined to the first sentence of the chunk. -/
def BaseOK (cfg : ChunkerCfg) (sents : List Str) (b : Str) : Prop :=
  b ∈ sents ∨ ∃ t s, s ∈ sents ∧ b = get_overlap_text cfg t ++ ' ' :: s

/-- What `chunk_text` actually guarantees about an emitted chunk: its
text is the stripped space-join of a base plus appended sentences, its
`token_count` is the accumulated count (exact encoding length of the
base, plus the sum of the appended sentences' own token counts), and
that accumulated count respects `chunk_size` unless the chunk consists
of its base alone. -/
def ChunkRep (cfg : ChunkerCfg) (sents : List Str) (c : Chunk) : Prop :=
  ∃ b rest, c.text = strip (joinSp (b :: rest)) ∧
    c.token_count = (cfg.encode b).length + tokSum cfg rest ∧
    BaseOK cfg sents b ∧ (∀ r ∈ rest, r ∈ sents) ∧
    (c.token_count ≤ cfg.chunk_size ∨ rest = [])

/-- Invariant of the loop buffer. -/
def BufInv (cfg : ChunkerCfg) (sents : List Str) (cur : Str) (curTok : Nat) : Prop :=
  (cur = [] ∧ curTok = 0) ∨
  ∃ b rest, cur = joinSp (b :: rest) ∧ cur ≠ [] ∧
    curTok = (cfg.encode b).length + tokSum cfg rest ∧
    BaseOK cfg sents b ∧ (∀ r ∈ rest, r ∈ sents) ∧
    (curTok ≤ cfg.chunk_size ∨ rest = [])

lemma joinSp_append_single (l : List Str) (s : Str) (h : l ≠ []) :
    joinSp (l ++ [s]) = joinSp l ++ ' ' :: s := by
  induction l with
  | nil => exact absurd rfl h
  | cons a t ih =>
    cases t with
    | nil => simp [joinSp]
    | cons a2 t2 =>
      have ih1 := ih (by simp)
      calc joinSp ((a :: a2 :: t2) ++ [s])
          = a ++ ' ' :: joinSp ((a2 :: t2) ++ [s]) := rfl
        _ = a ++ ' ' :: (joinSp (a2 :: t2) ++ ' ' :: s) := by rw [ih1]
        _ = joinSp (a :: a2 :: t2) ++ ' ' :: s := by
            simp [joinSp]

lemma tokSum_append_single (cfg : ChunkerCfg) (l : List Str) (s : Str) :
    tokSum cfg (l ++ [s]) = tokSum cfg l + (cfg.encode s).length := by
  simp [tokSum]

lemma tokSum_nil (cfg : ChunkerCfg) : tokSum cfg [] = 0 := rfl

lemma chunkLoop_token (cfg : ChunkerCfg) (sents : List Str) (hE : cfg.encode [] = []) :
    ∀ (rem : List Str) (chunks : List Chunk) (cur : Str) (curTok : Nat),
    (∀ s ∈ rem, s ∈ sents) →
    (∀ c ∈ chunks, ChunkRep cfg sents c) →
    BufInv cfg sents cur curTok →
    (∀ c ∈ (chunkLoop cfg rem chunks cur curTok).1, ChunkRep cfg sents c) ∧
    BufInv cfg sents (chunkLoop cfg rem chunks cur curTok).2.1
      (chunkLoop cfg rem chunks cur curTok).2.2 := by
  intro rem
  induction rem with
  | nil =>
    intro chunks cur curTok _ hc hb
    exact ⟨hc, hb⟩
  | cons s rest ih =>
    intro chunks cur curTok hrem hc hb
    have hs : s ∈ sents := hrem s (by simp)
    have hrest : ∀ x ∈ rest, x ∈ sents := fun x hx => hrem x (by simp [hx])
    by_cases hcond : cfg.chunk_size < curTok + (cfg.encode s).length ∧ cur ≠ []
    · rw [chunkLoop, if_pos hcond]
      rcases hb with ⟨hcur, _⟩ | ⟨b, brest, hcurEq, _, htok, hbase, hmem, hbound⟩
      · exact absurd hcur hcond.2
      · apply ih _ _ _ hrest
        · intro c hcmem
          rcases List.mem_append.1 hcmem with h | h
          · exact hc c h
          · have hceq : c = ⟨strip cur, curTok, chunks.length⟩ := by
              simpa using h
            subst hceq
            exact ⟨b, brest, by rw [hcurEq], htok, hbase, hmem, hbound⟩
        · refine Or.inr ⟨get_overlap_text cfg cur ++ ' ' :: s, [], rfl, by simp, ?_, ?_, ?_, ?_⟩
          · simp [tokSum]
          · exact Or.inr ⟨cur, s, hs, rfl⟩
          · intro r hr; simp at hr
          · exact Or.inr rfl
    · rw [chunkLoop, if_neg hcond]
      rcases hb with ⟨hcur, hzero⟩ | ⟨b, brest, hcurEq, hne, htok, hbase, hmem, hbound⟩
      · subst hcur hzero
        rw [if_pos rfl]
        apply ih _ _ _ hrest hc
        by_cases hsnil : s = []
        · subst hsnil
          exact Or.inl ⟨rfl, by simp [hE]⟩
        · refine Or.inr ⟨s, [], rfl, hsnil, ?_, Or.inl hs, ?_, Or.inr rfl⟩
          · simp [tokSum]
          · intro r hr; simp at hr
      · rw [if_neg hne]
        have hle : curTok + (cfg.encode s).length ≤ cfg.chunk_size := by
          rcases Nat.lt_or_ge cfg.chunk_size (curTok + (cfg.encode s).length) with h | h
          · exact absurd ⟨h, hne⟩ hcond
          · exact h
        apply ih _ _ _ hrest hc
        refine Or.inr ⟨b, brest ++ [s], ?_, by simp, ?_, hbase, ?_, Or.inl hle⟩
        · rw [hcurEq]
          have : joinSp ((b :: brest) ++ [s]) = joinSp (b :: brest) ++ ' ' :: s :=
            joinSp_append_single _ _ (by simp)
          simpa using this.symm
        · rw [tokSum_append_single, htok, Nat.add_assoc]
        · intro r hr
          rcases List.mem_append.1 hr with h | h
          · exact hmem r h
          · simp at h; subst h; exact hs

lemma chunk_text_rep (cfg : ChunkerCfg) (text : Str) (hE : cfg.encode [] = []) :
    ∀ c ∈ chunk_text cfg text, ChunkRep cfg (cfg.sentTokenize text) c := by
  intro c hc
  unfold chunk_text at hc
  by_cases hblank : strip text = []
  · simp [hblank] at hc
  · rw [if_neg hblank] at hc
    obtain ⟨hall, hbuf⟩ := chunkLoop_token cfg (cfg.sentTokenize text) hE
      (cfg.sentTokenize text) [] [] 0 (fun _ hx => hx) (by simp) (Or.inl ⟨rfl, rfl⟩)
    by_cases hfin : strip (chunkLoop cfg (cfg.sentTokenize text) [] [] 0).2.1 = []
    · rw [if_pos hfin] at hc
      exact hall c hc
    · rw [if_neg hfin] at hc
      rcases List.mem_append.1 hc with h | h
      · exact hall c h
      · have hceq : c = ⟨strip (chunkLoop cfg (cfg.sentTokenize text) [] [] 0).2.1,
            (chunkLoop cfg (cfg.sentTokenize text) [] [] 0).2.2,
            (chunkLoop cfg (cfg.sentTokenize text) [] [] 0).1.length⟩ := by
          simpa using h
        rcases hbuf with ⟨hc1, _⟩ | ⟨b, brest, hEq, _, htok, hbase, hmem, hbound⟩
        · rw [hc1] at hfin
          exact absurd rfl hfin
        · subst hceq
          exact ⟨b, brest, by rw [hEq], htok, hbase, hmem, hbound⟩

/-- A concrete executable tokenizer for witnesses and counterexamples:
one token per character (a byte-level subword tokenizer).  It
round-trips (`charDecode (charEncode s) = s`), as the spec requires of
the tokenizer collaborator. -/
def charEncode (s : Str) : List Nat := s.map Char.toNat

def charDecode (l : List Nat) : Str := l.map Char.ofNat

/-- A concrete executable sentence segmenter for witnesses and
counterexamples: splits on single spaces, dropping empty pieces. -/
def splitWordsAux (acc : Str) : Str → List Str
  | [] => if acc = [] then [] else [acc.reverse]
  | c :: rest =>
    if c = ' ' then
      if acc = [] then splitWordsAux [] rest
      else acc.reverse :: splitWordsAux [] rest
    else splitWordsAux (c :: acc) rest

def splitWords (s : Str) : List Str := splitWordsAux [] s

def cfgCE : ChunkerCfg := ⟨charEncode, charDecode, splitWords, 6, 3⟩

def txtCE : Str := ("aaaaa bbbbb c").toList

def cfg2CE : ChunkerCfg := ⟨charEncode, charDecode, splitWords, 20, 3⟩

def txt2CE : Str := ("ab cd").toList

/-- C1 (amended): every chunk emitted by `chunk_text` has its stored
`token_count` at most `chunk_size`, except (a) a chunk consisting of
a single sentence whose own token count exceeds `chunk_size`, or (b)
a chunk consisting of an overlap tail (as computed by
`get_overlap_text`) joined to a single sentence, whose re-encoded
token count exceeds `chunk_size` even though the sentence alone need
not.  In both exceptional cases the stored count is the exact
encoding length of that base string, which is what exceeds the bound.
The guaranteed bound is on the accumulated `token_count`, not on the
re-encoded length of the final chunk text. -/
theorem chunk_text_token_bound (cfg : ChunkerCfg) (text : Str) (hE : cfg.encode [] = []) :
    ∀ c ∈ chunk_text cfg text,
      c.token_count ≤ cfg.chunk_size ∨
      (cfg.chunk_size < c.token_count ∧
        ((∃ s ∈ cfg.sentTokenize text, c.text = strip s ∧
            c.token_count = (cfg.encode s).length) ∨
          (∃ t s, s ∈ cfg.sentTokenize text ∧
            c.text = strip (get_overlap_text cfg t ++ ' ' :: s) ∧
            c.token_count =
              (cfg.encode (get_overlap_text cfg t ++ ' ' :: s)).length))) := by
  intro c hc
  obtain ⟨b, rest, htext, htok, hbase, hmem, hbound⟩ := chunk_text_rep cfg text hE c hc
  by_cases hle : c.token_count ≤ cfg.chunk_size
  · exact Or.inl hle
  · rcases hbound with h | h
    · exact absurd h hle
    · subst h
      have htok1 : c.token_count = (cfg.encode b).length := by
        simpa [tokSum] using htok
      have htext1 : c.text = strip b := by
        simpa [joinSp] using htext
      refine Or.inr ⟨Nat.lt_of_not_le hle, ?_⟩
      rcases hbase with h | ⟨t, s, hsmem, hbeq⟩
      · exact Or.inl ⟨b, h, htext1, htok1⟩
      · exact Or.inr ⟨t, s, hsmem, by rw [htext1, hbeq], by rw [htok1, hbeq]⟩

/-- C1 counterexample: with a one-token-per-character tokenizer,
`chunk_size = 6`, `chunk_overlap = 3` and input "aaaaa bbbbb c", the
middle chunk "aaa bbbbb" (overlap seed "aaa" + sentence "bbbbb")
re-encodes to 9 tokens > 6, yet no single sentence of the input
exceeds the bound: the claimed token bound is violated by an
overlap-seeded chunk. -/
theorem chunk_text_token_bound_cex :
    ¬ (∀ c ∈ chunk_text cfgCE txtCE,
      (cfgCE.encode c.text).length ≤ cfgCE.chunk_size ∨
      ∃ s ∈ cfgCE.sentTokenize txtCE,
        c.text = strip s ∧ cfgCE.chunk_size < (cfgCE.encode s).length) := by
  decide

/-- Witness: `chunk_text_token_bound` applied at the concrete
configuration `cfgCE` and input `txtCE`, with its hypothesis
discharged by `rfl`. -/
theorem chunk_text_token_bound_witness :
    cfgCE.encode [] = [] ∧
    (∀ c ∈ chunk_text cfgCE txtCE,
      c.token_count ≤ cfgCE.chunk_size ∨
      (cfgCE.chunk_size < c.token_count ∧
        ((∃ s ∈ cfgCE.sentTokenize txtCE, c.text = strip s ∧
            c.token_count = (cfgCE.encode s).length) ∨
          (∃ t s, s ∈ cfgCE.sentTokenize txtCE ∧
            c.text = strip (get_overlap_text cfgCE t ++ ' ' :: s) ∧
            c.token_count =
              (cfgCE.encode (get_overlap_text cfgCE t ++ ' ' :: s)).length)))) :=
  ⟨rfl, chunk_text_token_bound cfgCE txtCE rfl⟩

/-- C2 (amended): the stored `token_count` of every chunk is the
accumulated count: the exact encoding length of the chunk's base
(its first sentence, or its overlap seed joined to its first sentence)
plus the sum of the individually-encoded lengths of the sentences
appended after it.  It is an accumulation over sentences, not the
encoding length of the chunk's final text. -/
theorem chunk_text_token_count_accum (cfg : ChunkerCfg) (text : Str)
    (hE : cfg.encode [] = []) :
    ∀ c ∈ chunk_text cfg text,
      ∃ b rest, c.text = strip (joinSp (b :: rest)) ∧
        c.token_count = (cfg.encode b).length + tokSum cfg rest ∧
        (b ∈ cfg.sentTokenize text ∨
          ∃ seed s, s ∈ cfg.sentTokenize text ∧ b = seed ++ ' ' :: s) ∧
        ∀ r ∈ rest, r ∈ cfg.sentTokenize text := by
  intro c hc
  obtain ⟨b, rest, htext, htok, hbase, hmem, _⟩ := chunk_text_rep cfg text hE c hc
  refine ⟨b, rest, htext, htok, ?_, hmem⟩
  rcases hbase with h | ⟨t, s, hs, hbeq⟩
  · exact Or.inl h
  · exact Or.inr ⟨get_overlap_text cfg t, s, hs, hbeq⟩

/-- C2 counterexample: with a one-token-per-character tokenizer and
input "ab cd" (two sentences "ab", "cd", both fitting one chunk), the
emitted chunk "ab cd" stores `token_count = 4` (2 + 2 accumulated per
sentence) while its text encodes to 5 tokens: the stored count is not
the tokenizer encoding length of the chunk text. -/
theorem chunk_text_token_count_cex :
    ¬ (∀ c ∈ chunk_text cfg2CE txt2CE,
      c.token_count = (cfg2CE.encode c.text).length) := by
  decide

/-- Witness: `chunk_text_token_count_accum` applied at the concrete
configuration `cfg2CE` and input `txt2CE`, hypothesis discharged by
`rfl`. -/
theorem chunk_text_token_count_accum_witness :
    cfg2CE.encode [] = [] ∧
    (∀ c ∈ chunk_text cfg2CE txt2CE,
      ∃ b rest, c.text = strip (joinSp (b :: rest)) ∧
        c.token_count = (cfg2CE.encode b).length + tokSum cfg2CE rest ∧
        (b ∈ cfg2CE.sentTokenize txt2CE ∨
          ∃ seed s, s ∈ cfg2CE.sentTokenize txt2CE ∧ b = seed ++ ' ' :: s) ∧
        ∀ r ∈ rest, r ∈ cfg2CE.sentTokenize txt2CE) :=
  ⟨rfl, chunk_text_token_count_accum cfg2CE txt2CE rfl⟩

/-- Last character of the nonempty string `c :: t`. -/
def lastChar (c : Char) : Str → Char
  | [] => c
  | d :: t => lastChar d t

/-- A sentence as produced by a well-behaved segmenter (such as
`nltk.sent_tokenize`): nonempty, with no leading or trailing
whitespace. -/
def cleanSent : Str → Bool
  | [] => false
  | c :: t => !wsChar c && !wsChar (lastChar c t)

lemma lastChar_reverse : ∀ (t : Str) (c : Char), ∃ r, (c :: t).reverse = lastChar c t :: r := by
  intro t
  induction t with
  | nil => intro c; exact ⟨[], by simp [lastChar]⟩
  | cons d t ih =>
    intro c
    obtain ⟨r, hr⟩ := ih d
    exact ⟨r ++ [c], by rw [List.reverse_cons, hr]; simp [lastChar]⟩

lemma trimLeft_append_of_head (c : Char) (t : Str) (hc : wsChar c = false) :
    ∀ a : Str, ∃ p, trimLeft (a ++ (c :: t)) = p ++ (c :: t) := by
  intro a
  induction a with
  | nil => exact ⟨[], by simp [trimLeft, List.dropWhile_cons, hc]⟩
  | cons x a ih =>
    by_cases hx : wsChar x = true
    · obtain ⟨p, hp⟩ := ih
      exact ⟨p, by simpa [trimLeft, List.dropWhile_cons, hx] using hp⟩
    · exact ⟨x :: a, by simp [trimLeft, List.dropWhile_cons, hx]⟩

lemma trimRight_fix (l : Str) (c : Char) (r : Str)
    (h : l.reverse = c :: r) (hc : wsChar c = false) : trimRight l = l := by
  unfold trimRight
  rw [h, List.dropWhile_cons, hc]
  simp only [Bool.false_eq_true, if_false]
  rw [← h, List.reverse_reverse]

lemma joinSp_head (s : Str) (rest : List Str) (c : Char) (t : Str) (hs : s = c :: t) :
    ∃ tt, joinSp (s :: rest) = c :: tt := by
  cases rest with
  | nil => exact ⟨t, by simp [joinSp, hs]⟩
  | cons s2 r2 => exact ⟨t ++ ' ' :: joinSp (s2 :: r2), by simp [joinSp, hs]⟩

lemma joinSp_last (g : List Str) (hg : g ≠ []) (hcl : ∀ s ∈ g, cleanSent s = true) :
    ∃ c r, (joinSp g).reverse = c :: r ∧ wsChar c = false := by
  induction g with
  | nil => exact absurd rfl hg
  | cons s gs ih =>
    cases gs with
    | nil =>
      have hsc : cleanSent s = true := hcl s (by simp)
      cases s with
      | nil => simp [cleanSent] at hsc
      | cons c0 t0 =>
        obtain ⟨r, hr⟩ := lastChar_reverse t0 c0
        refine ⟨lastChar c0 t0, r, by simpa [joinSp] using hr, ?_⟩
        simp [cleanSent] at hsc
        exact hsc.2
    | cons s2 gs2 =>
      obtain ⟨c, r, hcr, hc⟩ := ih (by simp) (fun x hx => hcl x (by simp [hx]))
      refine ⟨c, r ++ ' ' :: s.reverse, ?_, hc⟩
      show (s ++ ' ' :: joinSp (s2 :: gs2)).reverse = c :: (r ++ ' ' :: s.reverse)
      rw [List.reverse_append, List.reverse_cons, hcr]
      simp

lemma joinSp_head_clean (g : List Str) (hg : g ≠ []) (hcl : ∀ s ∈ g, cleanSent s = true) :
    ∃ c t, joinSp g = c :: t ∧ wsChar c = false := by
  cases g with
  | nil => exact absurd rfl hg
  | cons s gs =>
    have hsc : cleanSent s = true := hcl s (by simp)
    cases s with
    | nil => simp [cleanSent] at hsc
    | cons c0 t0 =>
      obtain ⟨tt, htt⟩ := joinSp_head (c0 :: t0) gs c0 t0 rfl
      refine ⟨c0, tt, htt, ?_⟩
      simp [cleanSent] at hsc
      exact hsc.1

lemma joinSp_ne (g : List Str) (hg : g ≠ []) (hcl : ∀ s ∈ g, cleanSent s = true) :
    joinSp g ≠ [] := by
  obtain ⟨c, t, heq, _⟩ := joinSp_head_clean g hg hcl
  simp [heq]

lemma strip_append_join (a : Str) (g : List Str) (hg : g ≠ [])
    (hcl : ∀ s ∈ g, cleanSent s = true) :
    ∃ p, strip (a ++ joinSp g) = p ++ joinSp g := by
  obtain ⟨c, t, hhead, hc⟩ := joinSp_head_clean g hg hcl
  obtain ⟨d, r, hlast, hd⟩ := joinSp_last g hg hcl
  obtain ⟨p, hp⟩ := trimLeft_append_of_head c t hc a
  refine ⟨p, ?_⟩
  unfold strip
  rw [hhead, hp]
  apply trimRight_fix _ d (r ++ p.reverse)
  · rw [List.reverse_append]
    have hrev : (c :: t).reverse = d :: r := by rw [← hhead]; exact hlast
    rw [hrev]
    simp
  · exact hd

lemma strip_join_clean (g : List Str) (hg : g ≠ [])
    (hcl : ∀ s ∈ g, cleanSent s = true) :
    strip (joinSp g) = joinSp g := by
  obtain ⟨c, t, hhead, hc⟩ := joinSp_head_clean g hg hcl
  obtain ⟨d, r, hlast, hd⟩ := joinSp_last g hg hcl
  unfold strip
  have h1 : trimLeft (joinSp g) = joinSp g := by
    rw [hhead]
    simp [trimLeft, List.dropWhile_cons, hc]
  rw [h1]
  exact trimRight_fix _ d r hlast hd

/-- Correspondence of an emitted chunk to its group of sentences: the
chunk text is some (possibly empty) overlap-seeded leading text
followed by the space-join of the group. -/
def RepC (c : Chunk) (g : List Str) : Prop :=
  g ≠ [] ∧ ∃ p, c.text = p ++ joinSp g

lemma forall₂_append_single {α β : Type _} {R : α → β → Prop} :
    ∀ {l1 : List α} {l2 : List β}, List.Forall₂ R l1 l2 →
      ∀ {a : α} {b : β}, R a b → List.Forall₂ R (l1 ++ [a]) (l2 ++ [b]) := by
  intro l1 l2 h
  induction h with
  | nil =>
    intro a b hab
    simpa using List.Forall₂.cons hab List.Forall₂.nil
  | cons hr _ ih =>
    intro a b hab
    exact List.Forall₂.cons hr (ih hab)

lemma forall₂_nil_left {β : Type _} {R : Chunk → β → Prop} {l : List β}
    (h : List.Forall₂ R [] l) : l = [] := by
  cases h
  rfl

lemma forall₂_mem_left {α β : Type _} {R : α → β → Prop} :
    ∀ {l1 : List α} {l2 : List β}, List.Forall₂ R l1 l2 →
      ∀ {a : α}, a ∈ l1 → ∃ b, b ∈ l2 ∧ R a b := by
  intro l1 l2 h
  induction h with
  | nil =>
    intro a ha
    simp at ha
  | cons hr _ ih =>
    intro a ha
    rcases List.mem_cons.1 ha with h1 | h1
    · subst h1
      exact ⟨_, by simp, hr⟩
    · obtain ⟨b, hb, hrb⟩ := ih h1
      exact ⟨b, by simp [hb], hrb⟩

lemma chunkLoop_struct (cfg : ChunkerCfg) (sents : List Str)
    (hclean : ∀ s ∈ sents, cleanSent s = true) :
    ∀ (rem : List Str) (chunks : List Chunk) (cur : Str) (curTok : Nat)
      (gss : List (List Str)) (gcur : List Str),
    (∀ s ∈ rem, s ∈ sents) →
    (∀ s ∈ gcur, s ∈ sents) →
    (∀ g ∈ gss, g ≠ [] ∧ ∀ s ∈ g, s ∈ sents) →
    List.Forall₂ RepC chunks gss →
    (∀ c g, chunks.head? = some c → gss.head? = some g → c.text = joinSp g) →
    ((cur = [] ∧ gcur = []) ∨
      (gcur ≠ [] ∧ ∃ a, cur = a ++ joinSp gcur ∧ (chunks = [] → a = []))) →
    ∃ gss1 gcur1,
      gss1.flatten ++ gcur1 = gss.flatten ++ gcur ++ rem ∧
      (∀ s ∈ gcur1, s ∈ sents) ∧
      (∀ g ∈ gss1, g ≠ [] ∧ ∀ s ∈ g, s ∈ sents) ∧
      List.Forall₂ RepC (chunkLoop cfg rem chunks cur curTok).1 gss1 ∧
      (∀ c g, (chunkLoop cfg rem chunks cur curTok).1.head? = some c →
        gss1.head? = some g → c.text = joinSp g) ∧
      (((chunkLoop cfg rem chunks cur curTok).2.1 = [] ∧ gcur1 = []) ∨
        (gcur1 ≠ [] ∧ ∃ a,
          (chunkLoop cfg rem chunks cur curTok).2.1 = a ++ joinSp gcur1 ∧
          ((chunkLoop cfg rem chunks cur curTok).1 = [] → a = []))) := by
  intro rem
  induction rem with
  | nil =>
    intro chunks cur curTok gss gcur _ hgcur hgss hf hh hbuf
    exact ⟨gss, gcur, by simp, hgcur, hgss, hf, hh, hbuf⟩
  | cons s rest ih =>
    intro chunks cur curTok gss gcur hrem hgcur hgss hf hh hbuf
    have hs : s ∈ sents := hrem s (by simp)
    have hrest : ∀ x ∈ rest, x ∈ sents := fun x hx => hrem x (by simp [hx])
    by_cases hcond : cfg.chunk_size < curTok + (cfg.encode s).length ∧ cur ≠ []
    · rw [chunkLoop, if_pos hcond]
      rcases hbuf with ⟨hcur, _⟩ | ⟨hgne, a, hcurEq, hfirst⟩
      · exact absurd hcur hcond.2
      · have hgcurClean : ∀ x ∈ gcur, cleanSent x = true :=
          fun x hx => hclean x (hgcur x hx)
        obtain ⟨p, hp⟩ := strip_append_join a gcur hgne hgcurClean
        have hrep : RepC ⟨strip cur, curTok, chunks.length⟩ gcur :=
          ⟨hgne, p, by rw [hcurEq]; exact hp⟩
        obtain ⟨gss1, gcur1, hjoin, h1, h2, h3, h4, h5⟩ :=
          ih (chunks ++ [⟨strip cur, curTok, chunks.length⟩])
            (get_overlap_text cfg cur ++ ' ' :: s)
            ((cfg.encode (get_overlap_text cfg cur ++ ' ' :: s)).length)
            (gss ++ [gcur]) [s]
            hrest
            (by intro x hx; simp at hx; subst hx; exact hs)
            (by
              intro g hg
              rcases List.mem_append.1 hg with h0 | h0
              · exact hgss g h0
              · simp at h0
                subst h0
                exact ⟨hgne, hgcur⟩)
            (forall₂_append_single hf hrep)
            (by
              intro c g hc hg
              cases chunks with
              | nil =>
                have hgssnil : gss = [] := forall₂_nil_left hf
                subst hgssnil
                simp at hc hg
                subst hc
                subst hg
                have ha : a = [] := hfirst rfl
                subst ha
                show strip cur = joinSp gcur
                rw [hcurEq]
                simpa using strip_join_clean gcur hgne hgcurClean
              | cons c1 chunks2 =>
                cases hf with
                | cons hr ht =>
                  simp at hc hg
                  subst hc
                  subst hg
                  exact hh _ _ rfl rfl)
            (Or.inr ⟨by simp, get_overlap_text cfg cur ++ [' '], by simp [joinSp],
              by intro h0; simp at h0⟩)
        refine ⟨gss1, gcur1, ?_, h1, h2, h3, h4, h5⟩
        rw [hjoin]
        simp
    · rw [chunkLoop, if_neg hcond]
      rcases hbuf with ⟨hcur, hgc⟩ | ⟨hgne, a, hcurEq, hfirst⟩
      · subst hcur
        subst hgc
        rw [if_pos rfl]
        obtain ⟨gss1, gcur1, hjoin, h1, h2, h3, h4, h5⟩ :=
          ih chunks s (curTok + (cfg.encode s).length) gss [s] hrest
            (by intro x hx; simp at hx; subst hx; exact hs)
            hgss hf hh
            (Or.inr ⟨by simp, [], by simp [joinSp], fun _ => rfl⟩)
        refine ⟨gss1, gcur1, ?_, h1, h2, h3, h4, h5⟩
        rw [hjoin]
        simp
      · have hgcurClean : ∀ x ∈ gcur, cleanSent x = true :=
          fun x hx => hclean x (hgcur x hx)
        have hjne : joinSp gcur ≠ [] := joinSp_ne gcur hgne hgcurClean
        have hcurne : cur ≠ [] := by
          rw [hcurEq]
          intro h0
          exact hjne (List.append_eq_nil.1 h0).2
        rw [if_neg hcurne]
        obtain ⟨gss1, gcur1, hjoin, h1, h2, h3, h4, h5⟩ :=
          ih chunks (cur ++ ' ' :: s) (curTok + (cfg.encode s).length) gss (gcur ++ [s]) hrest
            (by
              intro x hx
              rcases List.mem_append.1 hx with h0 | h0
              · exact hgcur x h0
              · simp at h0; subst h0; exact hs)
            hgss hf hh
            (Or.inr ⟨by simp, a, by
                rw [joinSp_append_single gcur s hgne, hcurEq]
                simp, hfirst⟩)
        refine ⟨gss1, gcur1, ?_, h1, h2, h3, h4, h5⟩
        rw [hjoin]
        simp

lemma chunk_text_struct (cfg : ChunkerCfg) (text : Str)
    (hclean : ∀ s ∈ cfg.sentTokenize text, cleanSent s = true)
    (hblank : strip text = [] → cfg.sentTokenize text = []) :
    ∃ gss : List (List Str),
      gss.flatten = cfg.sentTokenize text ∧
      (∀ g ∈ gss, g ≠ [] ∧ ∀ s ∈ g, s ∈ cfg.sentTokenize text) ∧
      List.Forall₂ RepC (chunk_text cfg text) gss ∧
      (∀ c g, (chunk_text cfg text).head? = some c → gss.head? = some g →
        c.text = joinSp g) := by
  by_cases hb : strip text = []
  · refine ⟨[], ?_, ?_, ?_, ?_⟩
    · rw [hblank hb]; rfl
    · intro g hg; simp at hg
    · have hct : chunk_text cfg text = [] := by unfold chunk_text; rw [if_pos hb]
      rw [hct]; exact List.Forall₂.nil
    · intro c g hc _
      have hct : chunk_text cfg text = [] := by unfold chunk_text; rw [if_pos hb]
      rw [hct] at hc; simp at hc
  · obtain ⟨gss1, gcur1, hjoin, h1, h2, h3, h4, h5⟩ :=
      chunkLoop_struct cfg (cfg.sentTokenize text) hclean (cfg.sentTokenize text)
        [] [] 0 [] [] (fun _ hx => hx) (by intro x hx; simp at hx)
        (by intro g hg; simp at hg) List.Forall₂.nil
        (by intro c g hc _; simp at hc) (Or.inl ⟨rfl, rfl⟩)
    simp only [List.flatten_nil, List.nil_append] at hjoin
    rcases h5 with ⟨hc1, hg1⟩ | ⟨hgne, a, haEq, hfirst⟩
    · subst hg1
      have hse : strip ([] : Str) = [] := rfl
      have hct : chunk_text cfg text = (chunkLoop cfg (cfg.sentTokenize text) [] [] 0).1 := by
        unfold chunk_text
        rw [if_neg hb, hc1, if_pos hse]
      refine ⟨gss1, ?_, h2, ?_, ?_⟩
      · simpa using hjoin
      · rw [hct]; exact h3
      · intro c g hc hg
        rw [hct] at hc
        exact h4 c g hc hg
    · have hclean1 : ∀ x ∈ gcur1, cleanSent x = true := fun x hx => hclean x (h1 x hx)
      obtain ⟨p, hp⟩ := strip_append_join a gcur1 hgne hclean1
      have hjne : joinSp gcur1 ≠ [] := joinSp_ne gcur1 hgne hclean1
      have hsne : strip (chunkLoop cfg (cfg.sentTokenize text) [] [] 0).2.1 ≠ [] := by
        rw [haEq, hp]
        intro h0
        exact hjne (List.append_eq_nil.1 h0).2
      have hct : chunk_text cfg text =
          (chunkLoop cfg (cfg.sentTokenize text) [] [] 0).1 ++
          [⟨strip (chunkLoop cfg (cfg.sentTokenize text) [] [] 0).2.1,
            (chunkLoop cfg (cfg.sentTokenize text) [] [] 0).2.2,
            (chunkLoop cfg (cfg.sentTokenize text) [] [] 0).1.length⟩] := by
        unfold chunk_text
        rw [if_neg hb, if_neg hsne]
      refine ⟨gss1 ++ [gcur1], ?_, ?_, ?_, ?_⟩
      · rw [List.flatten_append]
        simpa using hjoin
      · intro g hg
        rcases List.mem_append.1 hg with h0 | h0
        · exact h2 g h0
        · simp at h0; subst h0; exact ⟨hgne, h1⟩
      · rw [hct]
        refine forall₂_append_single h3 ⟨hgne, p, ?_⟩
        show strip (chunkLoop cfg (cfg.sentTokenize text) [] [] 0).2.1 = p ++ joinSp gcur1
        rw [haEq]; exact hp
      · intro c g hc hg
        rw [hct] at hc
        rcases hl : (chunkLoop cfg (cfg.sentTokenize text) [] [] 0).1 with _ | ⟨c1, cl⟩
        · rw [hl] at hc
          have hgssnil : gss1 = [] := by rw [hl] at h3; exact forall₂_nil_left h3
          subst hgssnil
          simp at hc hg
          subst hc
          subst hg
          show strip (chunkLoop cfg (cfg.sentTokenize text) [] [] 0).2.1 = joinSp gcur1
          have ha : a = [] := hfirst hl
          rw [haEq, ha]
          simpa using strip_join_clean gcur1 hgne hclean1
        · rw [hl] at hc
          simp at hc
          rcases gss1 with _ | ⟨g1, gl⟩
          · rw [hl] at h3; cases h3
          · simp at hg
            subst hc
            subst hg
            apply h4
            · rw [hl]; rfl
            · rfl

/-- C3 (confirmed): assuming the sentence segmenter behaves as
documented (sentences are nonempty and carry no leading/trailing
whitespace, and a blank text yields no sentences), the chunks emitted
by `chunk_text` partition the sentence sequence into consecutive
nonempty groups, in order: each chunk's text is an (overlap-seeded)
leading prefix followed by the space-join of its group — empty prefix
for the first chunk — and the concatenation of the groups is exactly
the original sentence sequence, so no sentence is dropped. -/
theorem chunk_text_no_sentence_dropped (cfg : ChunkerCfg) (text : Str)
    (hclean : ∀ s ∈ cfg.sentTokenize text, cleanSent s = true)
    (hblank : strip text = [] → cfg.sentTokenize text = []) :
    ∃ gss : List (List Str),
      gss.flatten = cfg.sentTokenize text ∧
      List.Forall₂ RepC (chunk_text cfg text) gss ∧
      (∀ c g, (chunk_text cfg text).head? = some c → gss.head? = some g →
        c.text = joinSp g) := by
  obtain ⟨gss, h1, _, h3, h4⟩ := chunk_text_struct cfg text hclean hblank
  exact ⟨gss, h1, h3, h4⟩

/-- Witness: `chunk_text_no_sentence_dropped` applied at the concrete
configuration `cfgCE` and input `txtCE`, hypotheses discharged by
`decide`. -/
theorem chunk_text_no_sentence_dropped_witness :
    (∀ s ∈ cfgCE.sentTokenize txtCE, cleanSent s = true) ∧
    (strip txtCE = [] → cfgCE.sentTokenize txtCE = []) ∧
    (∃ gss : List (List Str),
      gss.flatten = cfgCE.sentTokenize txtCE ∧
      List.Forall₂ RepC (chunk_text cfgCE txtCE) gss ∧
      (∀ c g, (chunk_text cfgCE txtCE).head? = some c → gss.head? = some g →
        c.text = joinSp g)) :=
  ⟨by decide, by decide,
    chunk_text_no_sentence_dropped cfgCE txtCE (by decide) (by decide)⟩

/-- C4 (confirmed): assuming the sentence segmenter behaves as
documented (nonempty whitespace-clean sentences, none for blank input,
at least one for non-blank input), `chunk_text` returns the empty list
exactly for blank or whitespace-only input, and every emitted chunk
has nonempty text after trimming. -/
theorem chunk_text_empty_iff_blank (cfg : ChunkerCfg) (text : Str)
    (hclean : ∀ s ∈ cfg.sentTokenize text, cleanSent s = true)
    (hblank : strip text = [] → cfg.sentTokenize text = [])
    (hne : strip text ≠ [] → cfg.sentTokenize text ≠ []) :
    (chunk_text cfg text = [] ↔ strip text = []) ∧
    ∀ c ∈ chunk_text cfg text, strip c.text ≠ [] := by
  obtain ⟨gss, hjoin, hgrp, hf, _⟩ := chunk_text_struct cfg text hclean hblank
  constructor
  · constructor
    · intro h
      by_contra hb
      have hsne := hne hb
      rw [h] at hf
      have hgssnil : gss = [] := forall₂_nil_left hf
      rw [hgssnil] at hjoin
      exact hsne hjoin.symm
    · intro h
      unfold chunk_text
      rw [if_pos h]
  · intro c hc
    obtain ⟨g, hg, hgne, p, hp⟩ := forall₂_mem_left hf hc
    have hgclean : ∀ x ∈ g, cleanSent x = true :=
      fun x hx => hclean x ((hgrp g hg).2 x hx)
    rw [hp]
    obtain ⟨p2, hp2⟩ := strip_append_join p g hgne hgclean
    rw [hp2]
    intro h0
    exact joinSp_ne g hgne hgclean (List.append_eq_nil.1 h0).2

/-- Witness: `chunk_text_empty_iff_blank` applied at the concrete
configuration `cfg2CE` and input `txt2CE`, hypotheses discharged by
`decide`. -/
theorem chunk_text_empty_iff_blank_witness :
    (∀ s ∈ cfg2CE.sentTokenize txt2CE, cleanSent s = true) ∧
    (strip txt2CE = [] → cfg2CE.sentTokenize txt2CE = []) ∧
    (strip txt2CE ≠ [] → cfg2CE.sentTokenize txt2CE ≠ []) ∧
    ((chunk_text cfg2CE txt2CE = [] ↔ strip txt2CE = []) ∧
      ∀ c ∈ chunk_text cfg2CE txt2CE, strip c.text ≠ []) :=
  ⟨by decide, by decide, by decide,
    chunk_text_empty_iff_blank cfg2CE txt2CE (by decide) (by decide) (by decide)⟩

/-- Outcome of `page.extract_text()` on one PDF page: `err` models an
exception escaping `extract_text` (caught by the per-page handler,
`continue`), `ok s` models successful extraction (`or ""` collapses
`None` into the empty string). -/
inductive PageRead
  | err
  | ok (s : Str)
deriving DecidableEq

/-- Environment for `_parse_pdf`: the per-page extracted texts and the
OCR engine (`pytesseract`), which may fail (`none` models a raised
exception). -/
structure PdfEnv where
  pages : List PageRead
  ocr : Nat → Option Str

/-- `DocumentParser._ocr_pdf_page`: OCR a page; any exception is caught
and yields the empty string. -/
def ocr_pdf_page (env : PdfEnv) (pageNum : Nat) : Str :=
  match env.ocr pageNum with
  | some t => t
  | none => []

/-- The page loop of `_parse_pdf`: accumulates `page_text + "\n"` per
page, routing a page through OCR when its stripped extracted text is
shorter than the OCR threshold; a page whose extraction raised is
skipped (`continue`).  Also returns the list of page indices for which
the OCR path was invoked. -/
def parsePdfLoop (th : Nat) (env : PdfEnv) : Nat → List PageRead → Str × List Nat
  | _, [] => ([], [])
  | i, PageRead.err :: rest => parsePdfLoop th env (i + 1) rest
  | i, PageRead.ok p :: rest =>
    if (strip p).length < th then
      ((ocr_pdf_page env i ++ '\n' :: (parsePdfLoop th env (i + 1) rest).1),
        i :: (parsePdfLoop th env (i + 1) rest).2)
    else
      ((p ++ '\n' :: (parsePdfLoop th env (i + 1) rest).1),
        (parsePdfLoop th env (i + 1) rest).2)

/-- `DocumentParser._parse_pdf` (the pdfplumber path): concatenated
per-page texts, stripped at the end. -/
def parse_pdf (th : Nat) (env : PdfEnv) : Str :=
  strip (parsePdfLoop th env 0 env.pages).1

/-- Page indices routed through OCR by `_parse_pdf`. -/
def ocrPages (th : Nat) (env : PdfEnv) : List Nat :=
  (parsePdfLoop th env 0 env.pages).2

/-- The text one page contributes to the concatenation. -/
def pagePiece (th : Nat) (env : PdfEnv) (ip : Nat × PageRead) : Str :=
  match ip.2 with
  | PageRead.err => []
  | PageRead.ok p =>
    (if (strip p).length < th then ocr_pdf_page env ip.1 else p) ++ ['\n']

/-- Whether a page triggers the OCR path. -/
def lowText (th : Nat) (r : PageRead) : Bool :=
  match r with
  | PageRead.err => false
  | PageRead.ok p => (strip p).length < th

lemma parsePdfLoop_spec (th : Nat) (env : PdfEnv) :
    ∀ (ps : List PageRead) (n : Nat),
      (parsePdfLoop th env n ps).1 =
        ((List.enumFrom n ps).map (pagePiece th env)).flatten ∧
      (parsePdfLoop th env n ps).2 =
        ((List.enumFrom n ps).filter (fun ip => lowText th ip.2)).map
          (fun ip => ip.1) := by
  intro ps
  induction ps with
  | nil => intro n; exact ⟨rfl, rfl⟩
  | cons r rest ih =>
    intro n
    cases r with
    | err =>
      obtain ⟨ih1, ih2⟩ := ih (n + 1)
      constructor
      · show (parsePdfLoop th env (n + 1) rest).1 = _
        rw [ih1]
        simp [pagePiece, lowText]
      · show (parsePdfLoop th env (n + 1) rest).2 = _
        rw [ih2]
        simp [pagePiece, lowText]
    | ok p =>
      obtain ⟨ih1, ih2⟩ := ih (n + 1)
      by_cases hlow : (strip p).length < th
      · constructor
        · show (parsePdfLoop th env n ((PageRead.ok p) :: rest)).1 = _
          rw [parsePdfLoop, if_pos hlow, ih1]
          simp [pagePiece, lowText, hlow]
        · show (parsePdfLoop th env n ((PageRead.ok p) :: rest)).2 = _
          rw [parsePdfLoop, if_pos hlow, ih2]
          simp [pagePiece, lowText, hlow]
      · constructor
        · show (parsePdfLoop th env n ((PageRead.ok p) :: rest)).1 = _
          rw [parsePdfLoop, if_neg hlow, ih1]
          simp [pagePiece, lowText, hlow]
        · show (parsePdfLoop th env n ((PageRead.ok p) :: rest)).2 = _
          rw [parsePdfLoop, if_neg hlow, ih2]
          simp [pagePiece, lowText, hlow]

/-- C5 (confirmed): `_parse_pdf` routes exactly the successfully
extracted pages whose stripped text is shorter than the OCR threshold
through the OCR path (sibling pages at or above the threshold are not
OCRed); the document text is the stripped concatenation of the
per-page pieces, so extraction always continues past every page; and a
below-threshold page whose OCR call fails contributes only the empty
string (plus the page separator) to the document. -/
theorem parse_pdf_ocr_threshold (th : Nat) (env : PdfEnv) (i : Nat) (p : Str)
    (hpage : env.pages[i]? = some (PageRead.ok p)) :
    (i ∈ ocrPages th env ↔ (strip p).length < th) ∧
    parse_pdf th env = strip ((env.pages.enum.map (pagePiece th env)).flatten) ∧
    ((strip p).length < th → env.ocr i = none →
      pagePiece th env (i, PageRead.ok p) = ['\n']) := by
  obtain ⟨h1, h2⟩ := parsePdfLoop_spec th env env.pages 0
  refine ⟨?_, ?_, ?_⟩
  · rw [ocrPages, h2]
    constructor
    · intro hmem
      simp only [List.mem_map, List.mem_filter] at hmem
      obtain ⟨⟨j, r⟩, ⟨hjr, hlow⟩, hji⟩ := hmem
      have hj : j = i := hji
      subst hj
      have hr : env.pages[j]? = some r := List.mk_mem_enum_iff_getElem?.1 hjr
      rw [hpage] at hr
      have hre : r = PageRead.ok p := (Option.some.inj hr).symm
      subst hre
      simpa [lowText] using hlow
    · intro hlow
      simp only [List.mem_map, List.mem_filter]
      refine ⟨(i, PageRead.ok p), ⟨?_, by simpa [lowText] using hlow⟩, rfl⟩
      exact List.mk_mem_enum_iff_getElem?.2 hpage
  · show strip (parsePdfLoop th env 0 env.pages).1 = _
    rw [h1]
    rfl
  · intro hlow hocr
    simp [pagePiece, hlow, ocr_pdf_page, hocr]

/-- Concrete PDF environment for the witness: page 0 extracts one
character (below the default 50-character threshold), page 1 extracts
ample text; the OCR engine always raises. -/
def pdfEnvW : PdfEnv :=
  ⟨[PageRead.ok (("x").toList), PageRead.ok (List.replicate 60 'y')], fun _ => none⟩

/-- Witness: `parse_pdf_ocr_threshold` applied at threshold 50 to the
concrete environment `pdfEnvW` and its page 0, hypothesis discharged
by `decide`. -/
theorem parse_pdf_ocr_threshold_witness :
    pdfEnvW.pages[0]? = some (PageRead.ok (("x").toList)) ∧
    ((0 ∈ ocrPages 50 pdfEnvW ↔ (strip (("x").toList)).length < 50) ∧
      parse_pdf 50 pdfEnvW =
        strip ((pdfEnvW.pages.enum.map (pagePiece 50 pdfEnvW)).flatten) ∧
      ((strip (("x").toList)).length < 50 → pdfEnvW.ocr 0 = none →
        pagePiece 50 pdfEnvW (0, PageRead.ok (("x").toList)) = ['\n'])) :=
  ⟨by decide, parse_pdf_ocr_threshold 50 pdfEnvW 0 (("x").toList) (by decide)⟩

/-- Environment for `_parse_txt`: the decoders for the encodings tried
other than Latin-1 are external (`none` models a `UnicodeDecodeError`).
Latin-1 itself is total and is modelled concretely below. -/
structure TxtEnv where
  utf8 : List (Fin 256) → Option Str
  cp1252 : List (Fin 256) → Option Str
  iso8859 : List (Fin 256) → Option Str

/-- Latin-1 decoding: every byte 0x00-0xFF maps to the code point of
the same value, so decoding never fails. -/
def latin1Decode (bs : List (Fin 256)) : Str :=
  bs.map (fun b => Char.ofNat b.val)

/-- `DocumentParser._parse_txt`: try utf-8, latin-1, cp1252,
iso-8859-1 in order; first successful decode wins; raise `ValueError`
(modelled as `Except.error ()`) if all fail. -/
def parse_txt (env : TxtEnv) (bs : List (Fin 256)) : Except Unit Str :=
  match env.utf8 bs with
  | some s => Except.ok s
  | none =>
    match (some (latin1Decode bs) : Option Str) with
    | some s => Except.ok s
    | none =>
      match env.cp1252 bs with
      | some s => Except.ok s
      | none =>
        match env.iso8859 bs with
        | some s => Except.ok s
        | none => Except.error ()

/-- C9 (confirmed): for every byte content and every behaviour of the
utf-8 decoder, `_parse_txt` succeeds — the Latin-1 fallback (second in
the priority list) decodes every byte sequence, so the
could-not-decode `ValueError` branch is unreachable and the spec's
`UndecodableText` outcome cannot occur for a readable file. -/
theorem parse_txt_never_fails (env : TxtEnv) (bs : List (Fin 256)) :
    ∃ s, parse_txt env bs = Except.ok s := by
  unfold parse_txt
  cases h : env.utf8 bs with
  | none => exact ⟨latin1Decode bs, rfl⟩
  | some s => exact ⟨s, rfl⟩

/-- An embedding vector.  `faiss` works over float32; the properties
proved here (which artifacts are persisted, result ordering, ranks and
counts) are independent of the score arithmetic, so coordinates are
modelled over `Int`. -/
abbrev Vec := List Int

/-- The `session_info.json` descriptor written by `_save_index`. -/
structure SessionInfo where
  session_id : String
  num_chunks : Nat
  embedding_model : String
  index_dimension : Nat
deriving DecidableEq

/-- The three artifacts stored in one session's folder. -/
structure SessionFiles where
  indexFile : Option (List Vec)
  metadataFile : Option (List Chunk)
  infoFile : Option SessionInfo

/-- The embeddings folder: session folder name to its files (`none`:
the folder does not exist). -/
def FS := String → Option SessionFiles

/-- Environment of `VectorStore`: the embedding endpoint (`none`
models a raised API error), `faiss.normalize_L2` (a float-level
rescaling, kept abstract), and the configured model name/dimension. -/
structure VSEnv where
  embed : List Str → Option (List Vec)
  normalize : Vec → Vec
  embedding_model : String
  dimension : Nat

/-- The batch loop of `create_embeddings`: embed each batch in order,
concatenating the returned vectors; the first failing batch aborts
(exception re-raised). -/
def embedBatches (env : VSEnv) : List (List Str) → Option (List Vec)
  | [] => some []
  | b :: rest =>
    match env.embed b with
    | none => none
    | some vs =>
      match embedBatches env rest with
      | none => none
      | some vs2 => some (vs ++ vs2)

/-- `range(0, len(texts), batch_size)` slicing with `batch_size = 100`,
written with an explicit fuel argument (the list length) so that it is
structurally recursive. -/
def batchListFuel : Nat → List Str → List (List Str)
  | 0, _ => []
  | _, [] => []
  | fuel + 1, t :: rest => ((t :: rest).take 100) :: batchListFuel fuel ((t :: rest).drop 100)

def batchList (l : List Str) : List (List Str) := batchListFuel l.length l

/-- `VectorStore._save_index`: create the session folder and write the
index, metadata and descriptor files. -/
def save_index (env : VSEnv) (fs : FS) (sid : String) (vecs : List Vec)
    (chunks : List Chunk) : FS :=
  fun s =>
    if s = sid then
      some ⟨some vecs, some chunks,
        some ⟨sid, chunks.length, env.embedding_model, env.dimension⟩⟩
    else fs s

/-- `VectorStore.create_embeddings`.  Returns the Python return value
(`Except.error ()` when an exception propagates to the caller) paired
with the resulting storage state. -/
def create_embeddings (env : VSEnv) (fs : FS) (chunks : List Chunk)
    (sid : String) : Except Unit Bool × FS :=
  if chunks = [] then (Except.ok false, fs)
  else
    match embedBatches env (batchList (chunks.map Chunk.text)) with
    | none => (Except.error (), fs)
    | some embs =>
      (Except.ok true, save_index env fs sid (embs.map env.normalize) chunks)

/-- `VectorStore.session_exists`: both the index file and the metadata
file are present. -/
def session_exists (fs : FS) (sid : String) : Bool :=
  match fs sid with
  | none => false
  | some f => f.indexFile.isSome && f.metadataFile.isSome

/-- `VectorStore._load_index`: `(None, None)` (here `none`) unless the
session folder, the index file and the metadata file all exist. -/
def load_index (fs : FS) (sid : String) : Option (List Vec × List Chunk) :=
  match fs sid with
  | none => none
  | some f =>
    match f.indexFile, f.metadataFile with
    | some idx, some md => some (idx, md)
    | _, _ => none

/-- Inner product of two vectors (`IndexFlatIP` score). -/
def dot : Vec → Vec → Int
  | [], _ => 0
  | _, [] => 0
  | x :: xs, y :: ys => x * y + dot xs ys

/-- Score-descending order on `(score, index)` pairs. -/
def scoreGe (a b : Int × Int) : Prop := b.1 ≤ a.1

instance : DecidableRel scoreGe := fun a b => inferInstanceAs (Decidable (b.1 ≤ a.1))

instance : IsTotal (Int × Int) scoreGe := ⟨fun a b => le_total b.1 a.1⟩

instance : IsTrans (Int × Int) scoreGe := ⟨fun _ _ _ h1 h2 => le_trans h2 h1⟩

/-- Model of `faiss.IndexFlatIP.search` on an index holding `stored`:
score every stored vector by inner product with the query, return the
`k` best `(score, index)` pairs in descending score order, padding
with `(0, -1)` entries when the index holds fewer than `k` vectors
(faiss marks missing neighbours with index `-1`; the pad score is
irrelevant because such entries carry no neighbour). -/
def faissSearch (stored : List Vec) (q : Vec) (k : Nat) : List (Int × Int) :=
  (List.insertionSort scoreGe (stored.enum.map (fun p => (dot q p.2, (p.1 : Int))))).take k
    ++ List.replicate (k - min k stored.length) (0, -1)

/-- One search result: the copied chunk plus `similarity_score` and
1-based `rank`. -/
structure SearchResult where
  chunk : Chunk
  similarity_score : Int
  rank : Nat
deriving DecidableEq

/-- Python list indexing: non-negative indices from the front,
negative indices from the back, `none` (an `IndexError`) out of
range. -/
def pyGet (l : List Chunk) (i : Int) : Option Chunk :=
  if 0 ≤ i then l[i.toNat]?
  else if (-i).toNat ≤ l.length then l[(l.length - (-i).toNat)]?
  else none

/-- The result loop of `similarity_search`: `enumerate(zip(scores[0],
indices[0]))`, skipping `-1` indices, attaching `rank = i + 1`; a
failing metadata lookup raises (`none`), which the caller's
`except` turns into an empty result. -/
def buildResults (md : List Chunk) : Nat → List (Int × Int) → Option (List SearchResult)
  | _, [] => some []
  | i, (sc, idx) :: rest =>
    if idx = -1 then buildResults md (i + 1) rest
    else
      match pyGet md idx with
      | none => none
      | some c =>
        match buildResults md (i + 1) rest with
        | none => none
        | some rs => some (⟨c, sc, i + 1⟩ :: rs)

/-- `VectorStore.similarity_search`.  Every failure path (missing
index, failed query embedding, missing query vector, metadata lookup
error) is caught by the surrounding `except` and yields `[]`. -/
def similarity_search (env : VSEnv) (fs : FS) (query : Str) (sid : String)
    (k : Nat) : List SearchResult :=
  match load_index fs sid with
  | none => []
  | some (idx, md) =>
    match env.embed [query] with
    | none => []
    | some qvs =>
      match qvs.head? with
      | none => []
      | some qv =>
        (buildResults md 0 (faissSearch idx (env.normalize qv) k)).getD []

lemma embedBatches_none (env : VSEnv) :
    ∀ bs : List (List Str), (∃ b ∈ bs, env.embed b = none) →
      embedBatches env bs = none := by
  intro bs
  induction bs with
  | nil =>
    intro h
    obtain ⟨b, hb, _⟩ := h
    simp at hb
  | cons b rest ih =>
    intro h
    obtain ⟨b0, hb0, hfail⟩ := h
    rcases List.mem_cons.1 hb0 with h0 | h0
    · subst h0
      simp [embedBatches, hfail]
    · cases he : env.embed b with
      | none => simp [embedBatches, he]
      | some vs => simp [embedBatches, he, ih ⟨b0, h0, hfail⟩]

/-- C6 (confirmed): if any embedding batch call fails during
`create_embeddings`, the call propagates an error to the caller and
leaves the storage state untouched — no partial index or metadata is
persisted, so `session_exists` is unchanged (in particular it stays
`false` for a previously unindexed session). -/
theorem create_embeddings_all_or_nothing (env : VSEnv) (fs : FS)
    (chunks : List Chunk) (sid : String)
    (hfail : ∃ b ∈ batchList (chunks.map Chunk.text), env.embed b = none) :
    create_embeddings env fs chunks sid = (Except.error (), fs) ∧
    session_exists (create_embeddings env fs chunks sid).2 sid =
      session_exists fs sid := by
  have hnil : chunks ≠ [] := by
    intro h
    subst h
    obtain ⟨b, hb, _⟩ := hfail
    simp [batchList, batchListFuel] at hb
  have h1 : create_embeddings env fs chunks sid = (Except.error (), fs) := by
    unfold create_embeddings
    rw [if_neg hnil, embedBatches_none env _ hfail]
  exact ⟨h1, by rw [h1]⟩

/-- Witness: `create_embeddings_all_or_nothing` applied to a concrete
store whose embedding endpoint always fails, one chunk, an empty
filesystem; hypothesis discharged by `decide`. -/
def envFailW : VSEnv := ⟨fun _ => none, id, "text-embedding-3-small", 1536⟩

def fsEmptyW : FS := fun _ => none

theorem create_embeddings_all_or_nothing_witness :
    (∃ b ∈ batchList ([(⟨("hi").toList, 1, 0⟩ : Chunk)].map Chunk.text),
      envFailW.embed b = none) ∧
    (create_embeddings envFailW fsEmptyW [⟨("hi").toList, 1, 0⟩] ("s1") =
        (Except.error (), fsEmptyW) ∧
      session_exists
        (create_embeddings envFailW fsEmptyW [⟨("hi").toList, 1, 0⟩] ("s1")).2 ("s1") =
        session_exists fsEmptyW ("s1")) :=
  ⟨by decide,
    create_embeddings_all_or_nothing envFailW fsEmptyW [⟨("hi").toList, 1, 0⟩]
      ("s1") (by decide)⟩

/-- C10 (confirmed): `create_embeddings` on an empty chunk list
returns `False` without raising, for every behaviour of the embedding
provider (so the provider is never consulted), and leaves the storage
state — hence `session_exists` — unchanged. -/
theorem create_embeddings_empty_chunks (env : VSEnv) (fs : FS) (sid : String) :
    create_embeddings env fs [] sid = (Except.ok false, fs) := rfl

/-- C7 (confirmed): `similarity_search` returns the empty list — and,
being a total function to `List`, raises nothing — whenever no index
is persisted for the session (`session_exists` is `false`) or the
query-embedding call fails. -/
theorem similarity_search_graceful (env : VSEnv) (fs : FS) (query : Str)
    (sid : String) (k : Nat)
    (h : session_exists fs sid = false ∨ env.embed [query] = none) :
    similarity_search env fs query sid k = [] := by
  rcases h with h | h
  · have hload : load_index fs sid = none := by
      unfold session_exists at h
      unfold load_index
      cases hf : fs sid with
      | none => rfl
      | some f =>
        cases hi : f.indexFile with
        | none => simp [hi]
        | some idx =>
          cases hm : f.metadataFile with
          | none => simp [hi, hm]
          | some md =>
            rw [hf] at h
            exfalso
            revert h
            simp [hi, hm]
    unfold similarity_search
    rw [hload]
  · unfold similarity_search
    cases hload : load_index fs sid with
    | none => rfl
    | some pr =>
      obtain ⟨idx, md⟩ := pr
      rw [h]

/-- Witness: `similarity_search_graceful` on the empty store (no
session folder at all), hypothesis discharged by `decide`. -/
theorem similarity_search_graceful_witness :
    (session_exists fsEmptyW ("s1") = false ∨ envFailW.embed [("q").toList] = none) ∧
    similarity_search envFailW fsEmptyW (("q").toList) ("s1") 5 = [] :=
  ⟨by decide,
    similarity_search_graceful envFailW fsEmptyW (("q").toList) ("s1") 5 (by decide)⟩

lemma buildResults_skip (md : List Chunk) :
    ∀ (pads : List (Int × Int)), (∀ p ∈ pads, p.2 = -1) →
      ∀ i, buildResults md i pads = some [] := by
  intro pads
  induction pads with
  | nil => intro _ _; rfl
  | cons p rest ih =>
    intro h i
    obtain ⟨sc, idx⟩ := p
    have hidx : idx = -1 := h (sc, idx) (by simp)
    subst hidx
    simp [buildResults, ih (fun q hq => h q (by simp [hq]))]

lemma buildResults_append_pads (md : List Chunk) :
    ∀ (xs pads : List (Int × Int)), (∀ p ∈ pads, p.2 = -1) →
      ∀ i, buildResults md i (xs ++ pads) = buildResults md i xs := by
  intro xs pads hpads
  induction xs with
  | nil =>
    intro i
    rw [List.nil_append, buildResults_skip md pads hpads i]
    rfl
  | cons p xs ih =>
    intro i
    obtain ⟨sc, idx⟩ := p
    rw [List.cons_append]
    by_cases hidx : idx = -1
    · subst hidx
      rw [buildResults, buildResults, if_pos rfl, if_pos rfl, ih]
    · rw [buildResults, buildResults, if_neg hidx, if_neg hidx]
      cases hg : pyGet md idx with
      | none => rfl
      | some c => rw [ih (i + 1)]

lemma buildResults_valid (md : List Chunk) :
    ∀ (xs : List (Int × Int)), (∀ p ∈ xs, p.2 ≠ -1) →
      ∀ i rs, buildResults md i xs = some rs →
        rs.length = xs.length ∧
        rs.map (fun r => r.similarity_score) = xs.map (fun p => p.1) ∧
        ∀ j (hj : j < rs.length), (rs.get ⟨j, hj⟩).rank = i + j + 1 := by
  intro xs
  induction xs with
  | nil =>
    intro _ i rs h
    have hrs : rs = [] := by
      have : (some [] : Option (List SearchResult)) = some rs := h
      exact (Option.some.inj this).symm
    subst hrs
    refine ⟨rfl, rfl, ?_⟩
    intro j hj
    simp at hj
  | cons p xs ih =>
    intro hval i rs h
    obtain ⟨sc, idx⟩ := p
    have hidx : idx ≠ -1 := hval (sc, idx) (by simp)
    rw [buildResults, if_neg hidx] at h
    cases hg : pyGet md idx with
    | none =>
      rw [hg] at h
      cases h
    | some c =>
      rw [hg] at h
      cases hb : buildResults md (i + 1) xs with
      | none =>
        rw [hb] at h
        cases h
      | some rs0 =>
        rw [hb] at h
        have hrs : rs = ⟨c, sc, i + 1⟩ :: rs0 := (Option.some.inj h).symm
        subst hrs
        obtain ⟨hl, hm, hr⟩ := ih (fun q hq => hval q (by simp [hq])) (i + 1) rs0 hb
        refine ⟨by simp [hl], by simp [hm], ?_⟩
        intro j hj
        cases j with
        | zero => rfl
        | succ j0 =>
          have hj0 : j0 < rs0.length := by simpa using hj
          have hrank := hr j0 hj0
          have hget : ((⟨c, sc, i + 1⟩ : SearchResult) :: rs0).get ⟨j0 + 1, hj⟩ =
              rs0.get ⟨j0, hj0⟩ := rfl
          rw [hget, hrank]
          omega

lemma faissSearch_parts (stored : List Vec) (q : Vec) (k : Nat) :
    ∃ top pads, faissSearch stored q k = top ++ pads ∧
      (∀ p ∈ top, p.2 ≠ -1) ∧ (∀ p ∈ pads, p.2 = -1) ∧
      top.length = min k stored.length ∧
      List.Pairwise scoreGe top := by
  refine ⟨(List.insertionSort scoreGe
      (stored.enum.map (fun p => (dot q p.2, (p.1 : Int))))).take k,
    List.replicate (k - min k stored.length) (0, -1), rfl, ?_, ?_, ?_, ?_⟩
  · intro p hp
    have hmem : p ∈ List.insertionSort scoreGe
        (stored.enum.map (fun p => (dot q p.2, (p.1 : Int)))) :=
      List.mem_of_mem_take hp
    have hmem2 : p ∈ stored.enum.map (fun p => (dot q p.2, (p.1 : Int))) :=
      (List.perm_insertionSort scoreGe _).mem_iff.1 hmem
    obtain ⟨⟨n, v⟩, _, hpe⟩ := List.mem_map.1 hmem2
    intro hcontra
    rw [← hpe] at hcontra
    simp at hcontra
  · intro p hp
    rw [List.eq_of_mem_replicate hp]
  · rw [List.length_take, List.length_insertionSort, List.length_map, List.enum_length]
  · exact List.Pairwise.sublist (List.take_sublist k _)
      (List.sorted_insertionSort scoreGe _)

/-- C8 (confirmed): whenever an index is loaded for the session, the
results of `similarity_search` are ordered by non-increasing
similarity score, the `j`-th result carries rank `j + 1` (invalid `-1`
positions returned by the index are skipped and never produce a
result), and the number of results is at most the minimum of `k` and
the number of indexed vectors. -/
theorem similarity_search_ranked (env : VSEnv) (fs : FS) (query : Str)
    (sid : String) (k : Nat) (vecs : List Vec) (md : List Chunk)
    (hload : load_index fs sid = some (vecs, md)) :
    List.Pairwise (fun a b => b.similarity_score ≤ a.similarity_score)
      (similarity_search env fs query sid k) ∧
    (∀ j (hj : j < (similarity_search env fs query sid k).length),
      ((similarity_search env fs query sid k).get ⟨j, hj⟩).rank = j + 1) ∧
    (similarity_search env fs query sid k).length ≤ min k vecs.length := by
  cases hq : env.embed [query] with
  | none =>
    have hss : similarity_search env fs query sid k = [] := by
      simp [similarity_search, hload, hq]
    rw [hss]
    exact ⟨by simp, by intro j hj; simp at hj, by simp⟩
  | some qvs =>
    cases hh : qvs.head? with
    | none =>
      have hss : similarity_search env fs query sid k = [] := by
        simp [similarity_search, hload, hq, hh]
      rw [hss]
      exact ⟨by simp, by intro j hj; simp at hj, by simp⟩
    | some qv =>
      obtain ⟨top, pads, hdecomp, htop, hpads, hlen, hsort⟩ :=
        faissSearch_parts vecs (env.normalize qv) k
      have hss : similarity_search env fs query sid k =
          (buildResults md 0 top).getD [] := by
        simp only [similarity_search, hload, hq, hh]
        rw [hdecomp, buildResults_append_pads md top pads hpads 0]
      cases hb : buildResults md 0 top with
      | none =>
        rw [hss, hb]
        exact ⟨by simp, by intro j hj; simp at hj, by simp⟩
      | some rs =>
        rw [hss, hb]
        simp only [Option.getD_some]
        obtain ⟨hrl, hrm, hrr⟩ := buildResults_valid md top htop 0 rs hb
        refine ⟨?_, ?_, ?_⟩
        · have h1 : List.Pairwise (fun x y : Int => y ≤ x)
              (top.map (fun p => p.1)) := List.pairwise_map.2 hsort
          rw [← hrm] at h1
          exact List.pairwise_map.1 h1
        · intro j hj
          have := hrr j hj
          simpa using this
        · rw [hrl, hlen]

/-- Concrete store for the search witness: session "s1" holds one
indexed vector and one chunk. -/
def fsOneW : FS :=
  fun s =>
    if s = ("s1") then
      some ⟨some [[(1 : Int)]], some [⟨("c").toList, 1, 0⟩],
        some ⟨"s1", 1, "text-embedding-3-small", 1536⟩⟩
    else none

/-- Concrete environment whose embedding endpoint always returns one
vector. -/
def envOkW : VSEnv := ⟨fun _ => some [[(2 : Int)]], id, "text-embedding-3-small", 1536⟩

/-- Witness: `similarity_search_ranked` applied to the concrete store
`fsOneW` with `k = 5` and one indexed chunk, hypothesis discharged by
`decide`. -/
theorem similarity_search_ranked_witness :
    load_index fsOneW ("s1") =
      some ([[(1 : Int)]], [(⟨("c").toList, 1, 0⟩ : Chunk)]) ∧
    (List.Pairwise (fun a b => b.similarity_score ≤ a.similarity_score)
      (similarity_search envOkW fsOneW (("q").toList) ("s1") 5) ∧
    (∀ j (hj : j < (similarity_search envOkW fsOneW (("q").toList) ("s1") 5).length),
      ((similarity_search envOkW fsOneW (("q").toList) ("s1") 5).get ⟨j, hj⟩).rank =
        j + 1) ∧
    (similarity_search envOkW fsOneW (("q").toList) ("s1") 5).length ≤
      min 5 [[(1 : Int)]].length) :=
  ⟨by decide,
    similarity_search_ranked envOkW fsOneW (("q").toList) ("s1") 5
      [[(1 : Int)]] [⟨("c").toList, 1, 0⟩] (by decide)⟩
